import Mathlib

/-!
Verification development for a minimal multi-agent orchestration engine
(`main.go`): roles with private append-only message logs, a publish/subscribe
watch-list delivery mechanism, and a coordinator (`Team.RunProject`) that
seeds every role, dispatches each role's action concurrently, collects
successful results through a buffered channel, and delivers each result to
every subscribed role.

The Go source is shallowly embedded: the per-role `Memory` is a list of
messages, a capability (`Action`) is a deterministic oracle
`run : String → Except String String`, and the concurrent part of
`Team.RunProject` is a small-step interleaving relation (`Step`) over an
explicit execution state, with one atomic step per role task and one step
per channel receive/delivery.
-/

namespace MetaGPT

/-- `Message` from the source: content, producing role's profile, and the
name of the capability that caused it (`CauseBy`). -/
structure Message where
  content : String
  role : String
  causeBy : String
  deriving DecidableEq, Repr

/-- `Memory.history` from the source: the ordered log of messages guarded by
the mutex.  The mutex itself is modelled by making every log operation one
atomic step of the semantics. -/
abbrev Memory := List Message

/-- `Memory.Add`: appends `msg` to the end of the log. -/
def Memory.add (m : Memory) (msg : Message) : Memory :=
  m ++ [msg]

/-- `Memory.GetRecent`: returns the last appended message as a one-element
slice (`history[len(history)-1:]`), or `nil` if the log is empty. -/
def Memory.getRecent (m : Memory) : List Message :=
  if m.length = 0 then [] else m.drop (m.length - 1)

/-- The `Action` interface from the source: a stable name and an invocation
that, given context text, returns output text or fails.  The concrete
providers (`SimpleWriteCode` etc.) make external network calls, so the
invocation is embedded as a deterministic oracle; failures carry the
underlying error as a string. -/
structure Action where
  name : String
  run : String → Except String String

/-- The two error shapes produced by `Role.Act`: the wrapped
`"%s action failed: %w"` error and the `"no suitable action found"` error. -/
inductive ActError where
  | actionFailed (name : String) (cause : String)
  | noSuitableAction
  deriving DecidableEq, Repr

/-- `Role` from the source.  The `Memory` field is mutable state and is kept
in the execution state (`ExecState.mems`, aligned by index with the team's
role list); the remaining fields are immutable configuration. -/
structure Role where
  name : String
  profile : String
  actions : List Action
  watchList : List String

/-- Default used with `List.getD` when indexing role lists. -/
def anyRole : Role :=
  { name := "", profile := "", actions := [], watchList := [] }

/-- `fmt.Sprintf("[%s]: %s\n", msg.Role, msg.Content)` from `Role.Act`. -/
def formatEntry (msg : Message) : String :=
  "[" ++ msg.role ++ "]: " ++ msg.content ++ "\n"

/-- The context-building loop of `Role.Act`: starting from `""`, append the
formatted form of each message returned by `GetRecent`. -/
def buildContext (msgs : List Message) : String :=
  msgs.foldl (fun acc msg => acc ++ formatEntry msg) ""

/-- The `for _, action := range r.Actions` loop body of `Role.Act`.  Both
branches of the body return, so the loop never reaches a second iteration:
the tail of the action list is never consulted. -/
def Role.actLoop (profile : String) (contextData : String) (mem : Memory) :
    List Action → Except ActError (Message × Memory)
  | [] => Except.error ActError.noSuitableAction
  | action :: _ =>
    match action.run contextData with
    | Except.error e => Except.error (ActError.actionFailed action.name e)
    | Except.ok output =>
      let msg : Message := { content := output, role := profile, causeBy := action.name }
      Except.ok (msg, mem.add msg)

/-- `Role.Act`: build the context string from `GetRecent`, then run the
action loop.  On success it returns the produced message together with the
role's updated memory (the self-append `r.Memory.Add(msg)`); on failure the
memory is not returned because it is unchanged. -/
def Role.act (r : Role) (mem : Memory) : Except ActError (Message × Memory) :=
  Role.actLoop r.profile (buildContext mem.getRecent) mem r.actions

/-- Go's `regexp.MustCompile("").FindStringSubmatch(rsp)`: the empty pattern
has no capture groups and matches the empty string at the start of any
input, so the submatch slice always has exactly one element, the empty
overall match. -/
def emptyPatternFindStringSubmatch (_rsp : String) : List String :=
  [""]

/-- `parseCode` from the source.  Both regular expressions it compiles are
the empty pattern, so both `len(matches) > 1` tests fail and the input is
returned unchanged.  `String.trim` stands in for `strings.TrimSpace` on the
never-taken branches. -/
def parseCode (rsp : String) : String :=
  let ms := emptyPatternFindStringSubmatch rsp
  if ms.length > 1 then
    (ms.getD 1 "").trim
  else
    let ms2 := emptyPatternFindStringSubmatch rsp
    if ms2.length > 1 then
      (ms2.getD 1 "").trim
    else
      rsp

/-- `Team` from the source: the role list and the project idea. -/
structure Team where
  roles : List Role
  projectIdea : String

/-- The seed message built at the top of `Team.RunProject`. -/
def seedMsg (idea : String) : Message :=
  { content := idea, role := "User", causeBy := "UserRequirement" }

/-- Execution state of the concurrent part of `Team.RunProject`:
per-role memories (aligned by index with the team's role list), per-role
task status (`none` = goroutine not yet finished, `some none` = finished
with an error, `some (some m)` = finished successfully producing `m`),
the contents of the buffered `results` channel, and the messages already
received and delivered by the `for msg := range results` loop. -/
structure ExecState where
  mems : List Memory
  outcomes : List (Option (Option Message))
  buffer : List Message
  delivered : List Message

/-- Effect of one role goroutine running to completion: run `Role.act` on
the role's current memory; on error only the task status changes (the
error is printed and nothing is sent); on success the role's memory is
replaced by the updated memory and the produced message is sent into the
buffered channel. -/
def taskPost (roles : List Role) (s : ExecState) (i : Nat) : ExecState :=
  match Role.act (roles.getD i anyRole) (s.mems.getD i []) with
  | Except.error _ => { s with outcomes := s.outcomes.set i (some none) }
  | Except.ok pr =>
    { s with
      mems := s.mems.set i pr.2
      outcomes := s.outcomes.set i (some (some pr.1))
      buffer := s.buffer ++ [pr.1] }

/-- The inner delivery loop of `Team.RunProject`: for each entry of the
role's watch list, if it equals the message's `CauseBy`, append the message
to the role's memory.  Duplicated watch-list entries cause repeated
appends. -/
def deliverLoop (msg : Message) (watchList : List String) (mem : Memory) : Memory :=
  watchList.foldl (fun acc watchType => if watchType = msg.causeBy then acc.add msg else acc) mem

/-- Effect of one iteration of `for msg := range results`: receive the
oldest buffered message, record it as delivered (it is printed), and run
the delivery loop against every role. -/
def deliverPost (roles : List Role) (s : ExecState) (msg : Message) (rest : List Message) :
    ExecState :=
  { mems := List.zipWith (fun r mem => deliverLoop msg r.watchList mem) roles s.mems
    outcomes := s.outcomes
    buffer := rest
    delivered := s.delivered ++ [msg] }

/-- State of `Team.RunProject` right after the sequential seeding loop and
before any goroutine is dispatched: the seed message has been appended to
every role's memory, no task has finished, the channel is empty and nothing
has been delivered.  `mems0` is the memories the roles start with. -/
def initState (roles : List Role) (mems0 : List Memory) (idea : String) : ExecState :=
  { mems := mems0.map (fun mem => mem.add (seedMsg idea))
    outcomes := roles.map (fun _ => none)
    buffer := []
    delivered := [] }

/-- One interleaving step of the concurrent part of `Team.RunProject`:
either some not-yet-finished role task runs to completion, or the main
loop receives (and delivers) the oldest message in the channel. -/
inductive Step (roles : List Role) : ExecState → ExecState → Prop
  | task (i : Nat) (s : ExecState) (hi : i < roles.length)
      (hpending : s.outcomes.getD i (some none) = none) :
      Step roles s (taskPost roles s i)
  | deliver (s : ExecState) (msg : Message) (rest : List Message)
      (hbuf : s.buffer = msg :: rest) :
      Step roles s (deliverPost roles s msg rest)

/-- Reflexive-transitive closure of `Step`. -/
inductive Steps (roles : List Role) : ExecState → ExecState → Prop
  | refl (s : ExecState) : Steps roles s s
  | tail {s t u : ExecState} : Steps roles s t → Step roles t u → Steps roles s u

/-- The states an execution of `Team.RunProject` on team `t` can reach,
starting from per-role memories `mems0`. -/
def RunReach (t : Team) (mems0 : List Memory) (s : ExecState) : Prop :=
  Steps t.roles (initState t.roles mems0 t.projectIdea) s

/-- A state in which `Team.RunProject` returns: the `range results` loop
exits once the channel is closed (which happens only after `wg.Wait()`,
i.e. after every role task has finished) and drained. -/
def IsFinal (s : ExecState) : Prop :=
  (∀ o ∈ s.outcomes, o ≠ none) ∧ s.buffer = []

/-- Extracts the produced message from a successful task status. -/
def successExtract : Option (Option Message) → Option Message
  | some (some m) => some m
  | _ => none

/-- The successful results recorded in the task statuses, in role order. -/
def successMsgs (outcomes : List (Option (Option Message))) : List Message :=
  outcomes.filterMap successExtract

/-! ### Concrete teams used in counterexamples and witnesses -/

/-- A capability that always succeeds with a fixed output. -/
def okAct (nm out : String) : Action :=
  { name := nm, run := fun _ => Except.ok out }

/-- A capability that always fails. -/
def failAct (nm : String) : Action :=
  { name := nm, run := fun _ => Except.error "boom" }

/-- A coder role as wired up in `main`. -/
def exCoder : Role :=
  { name := "Alice", profile := "SimpleCoder", actions := [okAct "SimpleWriteCode" "codeA"],
    watchList := ["UserRequirement"] }

/-- A tester role as wired up in `main`, watching the coder's capability. -/
def exTester : Role :=
  { name := "Bob", profile := "SimpleTester", actions := [okAct "SimpleWriteTest" "testB"],
    watchList := ["SimpleWriteCode"] }

/-- A two-role team. -/
def exTeam : Team :=
  { roles := [exCoder, exTester], projectIdea := "idea" }

/-- The message the coder role produces. -/
def exMsgA : Message :=
  { content := "codeA", role := "SimpleCoder", causeBy := "SimpleWriteCode" }

/-- Post-seed state of `exTeam` starting from empty memories. -/
def exS0 : ExecState := initState exTeam.roles [[], []] "idea"

/-- `exS0` after the coder's task (role 0) has run. -/
def exS1 : ExecState := taskPost exTeam.roles exS0 0

/-- `exS1` after the main loop receives and delivers the coder's message,
while the tester's task (role 1) has not yet run. -/
def exS2 : ExecState := deliverPost exTeam.roles exS1 exMsgA []

/-- A single role with an empty watch list whose capability succeeds. -/
def exLoner : Role :=
  { name := "Alice", profile := "SimpleCoder", actions := [okAct "SimpleWriteCode" "codeA"],
    watchList := [] }

/-- A one-role team around `exLoner`. -/
def exTeamL : Team :=
  { roles := [exLoner], projectIdea := "idea" }

/-- Post-seed state of `exTeamL` starting from an empty memory. -/
def exL0 : ExecState := initState exTeamL.roles [[]] "idea"

/-- `exL0` after the loner's task has run (successfully). -/
def exL1 : ExecState := taskPost exTeamL.roles exL0 0

/-- `exL1` after its produced message is received and delivered (to nobody:
the watch list is empty).  This is a final state. -/
def exL2 : ExecState := deliverPost exTeamL.roles exL1 exMsgA []

/-- A role that watches the name of its own capability. -/
def exSelf : Role :=
  { name := "Dee", profile := "SelfProf", actions := [okAct "SelfAct" "selfOut"],
    watchList := ["SelfAct"] }

/-- A one-role team around `exSelf`. -/
def exTeamD : Team :=
  { roles := [exSelf], projectIdea := "idea" }

/-- The message `exSelf` produces. -/
def exMsgD : Message :=
  { content := "selfOut", role := "SelfProf", causeBy := "SelfAct" }

/-- Post-seed state of `exTeamD` starting from an empty memory. -/
def exD0 : ExecState := initState exTeamD.roles [[]] "idea"

/-- `exD0` after the self-watching role's task has run. -/
def exD1 : ExecState := taskPost exTeamD.roles exD0 0

/-- `exD1` after delivery: the role receives its own message a second time. -/
def exD2 : ExecState := deliverPost exTeamD.roles exD1 exMsgD []

/-- A role whose only capability always fails. -/
def exFailRole : Role :=
  { name := "F", profile := "FProf", actions := [failAct "FAct"], watchList := [] }

/-- Execution invariant of the concurrent phase of `Team.RunProject`:
index alignment, conservation of results (what sits in the channel plus
what was delivered is, up to order, exactly the successful outcomes),
provenance of every message in every memory, persistence of the seed, and
the undisturbed shape of a pending role's memory while nothing has been
delivered. -/
structure Inv (roles : List Role) (mems0 : List Memory) (idea : String)
    (s : ExecState) : Prop where
  m0_len : mems0.length = roles.length
  mems_len : s.mems.length = roles.length
  out_len : s.outcomes.length = roles.length
  perm : (s.delivered ++ s.buffer).Perm (successMsgs s.outcomes)
  src : ∀ j, j < roles.length → ∀ m ∈ s.mems.getD j [],
    m ∈ mems0.getD j [] ∨ m = seedMsg idea ∨
    s.outcomes.getD j (some none) = some (some m) ∨
    m.causeBy ∈ (roles.getD j anyRole).watchList
  seeded : ∀ j, j < roles.length →
    ∃ suf, s.mems.getD j [] = mems0.getD j [] ++ [seedMsg idea] ++ suf
  quiet : s.delivered = [] → ∀ j, j < roles.length →
    s.outcomes.getD j (some none) = none →
    s.mems.getD j [] = (mems0.getD j []).add (seedMsg idea)

/-! ### General list helpers -/

lemma getD_irrel {α : Type _} (l : List α) (i : Nat) (d d' : α) (h : i < l.length) :
    l.getD i d = l.getD i d' := by
  rw [List.getD_eq_getElem l d h, List.getD_eq_getElem l d' h]

lemma getD_set_self {α : Type _} (l : List α) (i : Nat) (x d : α) (h : i < l.length) :
    (l.set i x).getD i d = x := by
  rw [List.getD_eq_getElem?_getD, List.getElem?_set_self h]
  rfl

lemma getD_set_ne {α : Type _} (l : List α) (i j : Nat) (x d : α) (h : i ≠ j) :
    (l.set i x).getD j d = l.getD j d := by
  rw [List.getD_eq_getElem?_getD, List.getElem?_set_ne h, ← List.getD_eq_getElem?_getD]

lemma getD_map {α β : Type _} (f : α → β) (l : List α) (i : Nat) (d : β) (d0 : α)
    (h : i < l.length) : (l.map f).getD i d = f (l.getD i d0) := by
  rw [List.getD_eq_getElem?_getD, List.getElem?_map, List.getElem?_eq_getElem h,
    List.getD_eq_getElem l d0 h]
  rfl

lemma getD_zipWith {α β γ : Type _} (f : α → β → γ) (l1 : List α) (l2 : List β)
    (j : Nat) (d : γ) (d1 : α) (d2 : β) (h1 : j < l1.length) (h2 : j < l2.length) :
    (List.zipWith f l1 l2).getD j d = f (l1.getD j d1) (l2.getD j d2) := by
  rw [List.getD_eq_getElem?_getD, List.getElem?_zipWith, List.getElem?_eq_getElem h1,
    List.getElem?_eq_getElem h2, List.getD_eq_getElem l1 d1 h1, List.getD_eq_getElem l2 d2 h2]
  rfl

/-- Setting an index whose current value is dropped by `filterMap` adds the
new value's image (if any), up to permutation. -/
lemma filterMap_set_perm {α β : Type _} (f : α → Option β) :
    ∀ (l : List α) (i : Nat) (x : α), i < l.length → f (l.getD i x) = none →
      ((l.set i x).filterMap f).Perm (l.filterMap f ++ (f x).toList)
  | [], i, x, h, _ => by simp at h
  | a :: tl, 0, x, _, h0 => by
    simp only [List.getD_cons_zero] at h0
    rw [List.set_cons_zero, List.filterMap_cons, List.filterMap_cons, h0]
    cases hx : f x with
    | none => simp
    | some b => simpa using (List.perm_append_singleton b (tl.filterMap f)).symm
  | a :: tl, i + 1, x, h, h0 => by
    simp only [List.getD_cons_succ] at h0
    have ih := filterMap_set_perm f tl i x (by simp at h; omega) h0
    rw [List.set_cons_succ, List.filterMap_cons, List.filterMap_cons]
    cases ha : f a with
    | none => simpa using ih
    | some b => simpa using ih.cons b

lemma count_none_set :
    ∀ (l : List (Option (Option Message))) (i : Nat) (v : Option (Option Message)),
      i < l.length → l.getD i (some none) = none → v ≠ none →
      (l.set i v).count none + 1 = l.count none
  | [], i, v, h, _, _ => by simp at h
  | a :: tl, 0, v, _, h0, hv => by
    simp only [List.getD_cons_zero] at h0
    subst h0
    rw [List.set_cons_zero, List.count_cons, List.count_cons]
    simp [hv]
  | a :: tl, i + 1, v, h, h0, hv => by
    simp only [List.getD_cons_succ] at h0
    have ih := count_none_set tl i v (by simp at h; omega) h0 hv
    rw [List.set_cons_succ, List.count_cons, List.count_cons]
    omega

/-! ### Memory and delivery-loop laws -/

lemma getRecent_add (mem : Memory) (x : Message) : (mem.add x).getRecent = [x] := by
  unfold Memory.add Memory.getRecent
  rw [List.length_append]
  simp only [List.length_cons, List.length_nil]
  rw [if_neg (by omega), show mem.length + (0 + 1) - 1 = mem.length by omega, List.drop_left]

lemma deliverLoop_eq (msg : Message) :
    ∀ (wl : List String) (mem : Memory),
      deliverLoop msg wl mem = mem ++ List.replicate (wl.count msg.causeBy) msg
  | [], mem => by simp [deliverLoop]
  | w :: tl, mem => by
    rw [show deliverLoop msg (w :: tl) mem
        = deliverLoop msg tl (if w = msg.causeBy then mem.add msg else mem) from rfl]
    rw [deliverLoop_eq msg tl, List.count_cons]
    by_cases h : w = msg.causeBy
    · rw [if_pos h, if_pos (beq_iff_eq.mpr h)]
      simp [Memory.add, List.replicate_succ, List.append_assoc]
    · rw [if_neg h, if_neg (by simpa using h)]
      simp

/-! ### Shape lemmas for `Role.act` -/

lemma act_ok_shape (r : Role) (mem : Memory) (pr : Message × Memory)
    (h : r.act mem = Except.ok pr) : pr.2 = mem.add pr.1 := by
  unfold Role.act at h
  cases hA : r.actions with
  | nil => rw [hA] at h; simp [Role.actLoop] at h
  | cons a tl =>
    rw [hA] at h
    cases hr : a.run (buildContext mem.getRecent) with
    | error e => simp [Role.actLoop, hr] at h
    | ok out =>
      simp only [Role.actLoop, hr] at h
      cases h
      rfl

/-! ### The invariant holds initially and is preserved by every step -/

lemma successMsgs_map_none (roles : List Role) :
    successMsgs (roles.map (fun _ => none)) = [] := by
  rw [successMsgs, List.filterMap_map]
  exact List.filterMap_eq_nil_iff.mpr (fun a _ => rfl)

lemma inv_init (roles : List Role) (mems0 : List Memory) (idea : String)
    (hm0 : mems0.length = roles.length) :
    Inv roles mems0 idea (initState roles mems0 idea) := by
  have hmem : ∀ j, j < roles.length →
      (initState roles mems0 idea).mems.getD j [] = (mems0.getD j []).add (seedMsg idea) := by
    intro j hj
    exact getD_map _ mems0 j [] [] (by omega)
  refine ⟨hm0, by simp [initState, hm0], by simp [initState], ?_, ?_, ?_, ?_⟩
  · dsimp only [initState]
    rw [successMsgs_map_none]
    simp
  · intro j hj m hm
    rw [hmem j hj] at hm
    simp only [Memory.add] at hm
    rcases List.mem_append.mp hm with h1 | h2
    · exact Or.inl h1
    · exact Or.inr (Or.inl (by simpa using h2))
  · intro j hj
    exact ⟨[], by rw [hmem j hj]; simp [Memory.add]⟩
  · intro _ j hj _
    exact hmem j hj

lemma inv_step {roles : List Role} {mems0 : List Memory} {idea : String}
    {s1 s2 : ExecState} (hinv : Inv roles mems0 idea s1) (hstep : Step roles s1 s2) :
    Inv roles mems0 idea s2 := by
  obtain ⟨hm0, hml, hol, hperm, hsrc, hseed, hquiet⟩ := hinv
  cases hstep with
  | task i _ hi hpending =>
    have hoi : i < s1.outcomes.length := by omega
    have hmi : i < s1.mems.length := by omega
    cases hact : Role.act (roles.getD i anyRole) (s1.mems.getD i []) with
    | error e =>
      simp only [taskPost, hact]
      have hgd : successExtract (s1.outcomes.getD i (some none)) = none := by
        rw [hpending]
        rfl
      have hsp := filterMap_set_perm successExtract s1.outcomes i (some none) hoi hgd
      have h0 : successExtract (some none) = none := rfl
      rw [h0] at hsp
      simp only [Option.toList_none, List.append_nil] at hsp
      refine ⟨hm0, hml, by simpa using hol, ?_, ?_, hseed, ?_⟩
      · exact hperm.trans hsp.symm
      · intro j hj m hm
        rcases hsrc j hj m hm with h1 | h2 | h3 | h4
        · exact Or.inl h1
        · exact Or.inr (Or.inl h2)
        · by_cases hij : j = i
          · subst hij
            rw [hpending] at h3
            simp at h3
          · refine Or.inr (Or.inr (Or.inl ?_))
            rw [getD_set_ne _ _ _ _ _ (fun he => hij he.symm)]
            exact h3
        · exact Or.inr (Or.inr (Or.inr h4))
      · intro hd j hj hpend'
        by_cases hij : j = i
        · subst hij
          rw [getD_set_self _ _ _ _ hoi] at hpend'
          simp at hpend'
        · rw [getD_set_ne _ _ _ _ _ (fun he => hij he.symm)] at hpend'
          exact hquiet hd j hj hpend'
    | ok pr =>
      simp only [taskPost, hact]
      have hshape := act_ok_shape _ _ pr hact
      have hgd : successExtract (s1.outcomes.getD i (some (some pr.1))) = none := by
        rw [getD_irrel _ i _ (some none) hoi, hpending]
        rfl
      have hsp := filterMap_set_perm successExtract s1.outcomes i (some (some pr.1)) hoi hgd
      have h1 : successExtract (some (some pr.1)) = some pr.1 := rfl
      rw [h1] at hsp
      simp only [Option.toList_some] at hsp
      refine ⟨hm0, by simpa using hml, by simpa using hol, ?_, ?_, ?_, ?_⟩
      · have hre : s1.delivered ++ (s1.buffer ++ [pr.1])
            = (s1.delivered ++ s1.buffer) ++ [pr.1] := by
          rw [List.append_assoc]
        rw [show successMsgs (s1.outcomes.set i (some (some pr.1)))
            = (s1.outcomes.set i (some (some pr.1))).filterMap successExtract from rfl]
        rw [hre]
        exact (hperm.append_right [pr.1]).trans hsp.symm
      · intro j hj m hm
        by_cases hij : j = i
        · subst hij
          rw [getD_set_self _ _ _ _ hmi, hshape] at hm
          simp only [Memory.add] at hm
          rcases List.mem_append.mp hm with hmold | hmnew
          · rcases hsrc j hj m hmold with h1 | h2 | h3 | h4
            · exact Or.inl h1
            · exact Or.inr (Or.inl h2)
            · rw [hpending] at h3
              simp at h3
            · exact Or.inr (Or.inr (Or.inr h4))
          · have hm1 : m = pr.1 := by simpa using hmnew
            subst hm1
            exact Or.inr (Or.inr (Or.inl (by rw [getD_set_self _ _ _ _ hoi])))
        · rw [getD_set_ne _ _ _ _ _ (fun he => hij he.symm)] at hm
          rcases hsrc j hj m hm with h1 | h2 | h3 | h4
          · exact Or.inl h1
          · exact Or.inr (Or.inl h2)
          · refine Or.inr (Or.inr (Or.inl ?_))
            rw [getD_set_ne _ _ _ _ _ (fun he => hij he.symm)]
            exact h3
          · exact Or.inr (Or.inr (Or.inr h4))
      · intro j hj
        obtain ⟨suf, hsuf⟩ := hseed j hj
        by_cases hij : j = i
        · subst hij
          refine ⟨suf ++ [pr.1], ?_⟩
          rw [getD_set_self _ _ _ _ hmi, hshape, hsuf]
          simp [Memory.add, List.append_assoc]
        · refine ⟨suf, ?_⟩
          rw [getD_set_ne _ _ _ _ _ (fun he => hij he.symm)]
          exact hsuf
      · intro hd j hj hpend'
        by_cases hij : j = i
        · subst hij
          rw [getD_set_self _ _ _ _ hoi] at hpend'
          simp at hpend'
        · rw [getD_set_ne _ _ _ _ _ (fun he => hij he.symm)] at hpend'
          rw [getD_set_ne _ _ _ _ _ (fun he => hij he.symm)]
          exact hquiet hd j hj hpend'
  | deliver _ msg rest hbuf =>
    refine ⟨hm0, ?_, hol, ?_, ?_, ?_, ?_⟩
    · simp [deliverPost, List.length_zipWith, hml]
    · simp only [deliverPost]
      rw [List.append_assoc, List.singleton_append, ← hbuf]
      exact hperm
    · intro j hj m hm
      simp only [deliverPost] at hm ⊢
      have hmj : j < s1.mems.length := by omega
      rw [getD_zipWith _ _ _ _ _ anyRole [] (by omega) hmj, deliverLoop_eq] at hm
      rcases List.mem_append.mp hm with hmold | hmrep
      · exact hsrc j hj m hmold
      · obtain ⟨hk, hmm⟩ := List.mem_replicate.mp hmrep
        subst hmm
        refine Or.inr (Or.inr (Or.inr ?_))
        exact List.count_pos_iff.mp (Nat.pos_of_ne_zero hk)
    · intro j hj
      obtain ⟨suf, hsuf⟩ := hseed j hj
      simp only [deliverPost]
      have hmj : j < s1.mems.length := by omega
      rw [getD_zipWith _ _ _ _ _ anyRole [] (by omega) hmj, deliverLoop_eq, hsuf]
      exact ⟨suf ++ List.replicate (((roles.getD j anyRole).watchList).count msg.causeBy) msg,
        by simp [List.append_assoc]⟩
    · intro hd
      simp only [deliverPost] at hd
      simp at hd

lemma steps_inv {roles : List Role} {mems0 : List Memory} {idea : String}
    {s1 s2 : ExecState} (h : Steps roles s1 s2) (hinv : Inv roles mems0 idea s1) :
    Inv roles mems0 idea s2 := by
  induction h with
  | refl => exact hinv
  | tail _ hstep ih => exact inv_step ih hstep

lemma runReach_inv {tm : Team} {mems0 : List Memory} {s : ExecState}
    (h : RunReach tm mems0 s) (hm0 : mems0.length = tm.roles.length) :
    Inv tm.roles mems0 tm.projectIdea s :=
  steps_inv h (inv_init _ _ _ hm0)

/-! ### Every execution can run to completion -/

lemma steps_trans {roles : List Role} {s1 s2 s3 : ExecState}
    (h1 : Steps roles s1 s2) (h2 : Steps roles s2 s3) : Steps roles s1 s3 := by
  induction h2 with
  | refl => exact h1
  | tail _ hstep ih => exact Steps.tail ih hstep

lemma taskPost_outcomes_shape (roles : List Role) (s : ExecState) (i : Nat) :
    ∃ v, v ≠ none ∧ (taskPost roles s i).outcomes = s.outcomes.set i v ∧
      (taskPost roles s i).delivered = s.delivered := by
  cases hact : Role.act (roles.getD i anyRole) (s.mems.getD i []) with
  | error e =>
    exact ⟨some none, by simp, by simp only [taskPost, hact], by simp only [taskPost, hact]⟩
  | ok pr =>
    exact ⟨some (some pr.1), by simp,
      by simp only [taskPost, hact], by simp only [taskPost, hact]⟩

lemma exists_pending_index (l : List (Option (Option Message)))
    (h : 0 < l.count none) : ∃ i, i < l.length ∧ l.getD i (some none) = none := by
  have hmem : (none : Option (Option Message)) ∈ l := List.count_pos_iff.mp h
  obtain ⟨i, hlt, hget⟩ := List.getElem_of_mem hmem
  refine ⟨i, hlt, ?_⟩
  rw [List.getD_eq_getElem _ _ hlt]
  exact hget

lemma run_all_tasks {roles : List Role} {mems0 : List Memory} {idea : String} :
    ∀ (k : Nat) (s : ExecState), Inv roles mems0 idea s → s.outcomes.count none = k →
      ∃ s2, Steps roles s s2 ∧ Inv roles mems0 idea s2 ∧ s2.outcomes.count none = 0
  | 0, s, hinv, hcount => ⟨s, Steps.refl s, hinv, hcount⟩
  | k + 1, s, hinv, hcount => by
    obtain ⟨i, hlt, hpend⟩ := exists_pending_index s.outcomes (by omega)
    have hi : i < roles.length := by
      have := hinv.out_len
      omega
    have hstep : Step roles s (taskPost roles s i) := Step.task i s hi hpend
    have hinv2 := inv_step hinv hstep
    obtain ⟨v, hv, hout, _⟩ := taskPost_outcomes_shape roles s i
    have hcount2 : (taskPost roles s i).outcomes.count none = k := by
      rw [hout]
      have := count_none_set s.outcomes i v hlt hpend hv
      omega
    obtain ⟨s2, hsteps, hinv3, hzero⟩ := run_all_tasks k (taskPost roles s i) hinv2 hcount2
    exact ⟨s2, steps_trans (Steps.tail (Steps.refl s) hstep) hsteps, hinv3, hzero⟩

lemma drain_buffer {roles : List Role} {mems0 : List Memory} {idea : String} :
    ∀ (n : Nat) (s : ExecState), Inv roles mems0 idea s → s.buffer.length = n →
      ∃ s2, Steps roles s s2 ∧ Inv roles mems0 idea s2 ∧ s2.buffer = [] ∧
        s2.outcomes = s.outcomes ∧ s2.delivered = s.delivered ++ s.buffer
  | 0, s, hinv, hlen => by
    have hb : s.buffer = [] := List.eq_nil_of_length_eq_zero hlen
    exact ⟨s, Steps.refl s, hinv, hb, rfl, by rw [hb, List.append_nil]⟩
  | n + 1, s, hinv, hlen => by
    cases hbuf : s.buffer with
    | nil =>
      rw [hbuf] at hlen
      simp at hlen
    | cons msg rest =>
      have hstep : Step roles s (deliverPost roles s msg rest) := Step.deliver s msg rest hbuf
      have hinv2 := inv_step hinv hstep
      have hlen2 : (deliverPost roles s msg rest).buffer.length = n := by
        have hr : s.buffer.length = rest.length + 1 := by
          rw [hbuf]
          rfl
        simp only [deliverPost]
        omega
      obtain ⟨s2, hsteps, hinv3, hb2, hout2, hd2⟩ :=
        drain_buffer n (deliverPost roles s msg rest) hinv2 hlen2
      refine ⟨s2, steps_trans (Steps.tail (Steps.refl s) hstep) hsteps, hinv3, hb2, ?_, ?_⟩
      · exact hout2
      · rw [hd2]
        simp [deliverPost]

lemma exists_final {roles : List Role} {mems0 : List Memory} {idea : String}
    (s : ExecState) (hinv : Inv roles mems0 idea s) :
    ∃ s2, Steps roles s s2 ∧ Inv roles mems0 idea s2 ∧ IsFinal s2 := by
  obtain ⟨s1, hsteps1, hinv1, hzero⟩ := run_all_tasks (s.outcomes.count none) s hinv rfl
  obtain ⟨s2, hsteps2, hinv2, hb, hout, _⟩ := drain_buffer (s1.buffer.length) s1 hinv1 rfl
  refine ⟨s2, steps_trans hsteps1 hsteps2, hinv2, ?_, hb⟩
  intro o ho
  rw [hout] at ho
  intro hno
  subst hno
  exact absurd ho (List.count_eq_zero.mp hzero)

/-! ### Remaining small helpers for the claim theorems -/

lemma successExtract_eq_some {o : Option (Option Message)} {m : Message}
    (h : successExtract o = some m) : o = some (some m) := by
  cases o with
  | none =>
    have h2 : (none : Option Message) = some m := h
    cases h2
  | some oo =>
    cases oo with
    | none =>
      have h2 : (none : Option Message) = some m := h
      cases h2
    | some mm =>
      have h2 : some mm = some m := h
      cases h2
      rfl

lemma getD_replicate_self {α : Type _} (a : α) :
    ∀ (n j : Nat), (List.replicate n a).getD j a = a
  | 0, _ => rfl
  | n + 1, 0 => by rw [List.replicate_succ, List.getD_cons_zero]
  | n + 1, j + 1 => by rw [List.replicate_succ, List.getD_cons_succ, getD_replicate_self a n j]

lemma buildContext_join (msgs : List Message) :
    buildContext msgs = String.join (msgs.map formatEntry) := by
  unfold buildContext String.join
  rw [List.foldl_map]

/-! ### Claim theorems -/

/-- C1 (counterexample): delivery can begin before the fan-in barrier.  In
the two-role team `exTeam`, after the coder's task completes and the main
loop receives its message (trace: task 0, then deliver), the reached state
has a delivered message while role 1's task has not terminated — refuting
the claim that no delivery `Add` occurs until every dispatched role task
has terminated. -/
theorem runProject_delivery_before_barrier_counterexample :
    RunReach exTeam [[], []] exS2 ∧ exS2.delivered = [exMsgA] ∧
    exS2.outcomes.getD 1 (some none) = none ∧ 1 < exTeam.roles.length := by
  refine ⟨?_, rfl, rfl, by decide⟩
  exact Steps.tail (Steps.tail (Steps.refl exS0) (Step.task 0 exS0 (by decide) rfl))
    (Step.deliver exS1 exMsgA [] rfl)

/-- C1 (amended): in `Team.RunProject`, delivery of an individual message
may begin before all dispatched role tasks have terminated, but every
message delivered (or buffered in the channel) at any reachable state was
produced by a role task that had already terminated with success, and the
delivered-plus-buffered count always equals the number of successfully
terminated tasks; the delivery loop itself only exits after the channel is
closed behind the `wg.Wait()` barrier. -/
theorem runProject_delivered_producer_terminated (tm : Team) (mems0 : List Memory)
    (s : ExecState) (hm0 : mems0.length = tm.roles.length) (h : RunReach tm mems0 s) :
    (∀ m ∈ s.delivered, some (some m) ∈ s.outcomes) ∧
    s.delivered.length + s.buffer.length = (successMsgs s.outcomes).length := by
  have hinv := runReach_inv h hm0
  constructor
  · intro m hm
    have hmem : m ∈ successMsgs s.outcomes :=
      hinv.perm.mem_iff.mp (List.mem_append.mpr (Or.inl hm))
    obtain ⟨o, ho, hfo⟩ := List.mem_filterMap.mp hmem
    exact successExtract_eq_some hfo ▸ ho
  · have hl := hinv.perm.length_eq
    simpa using hl

/-- Witness for C1 (amended), at the concrete reachable state `exS2`. -/
theorem runProject_delivered_producer_terminated_witness :
    (∀ m ∈ exS2.delivered, some (some m) ∈ exS2.outcomes) ∧
    exS2.delivered.length + exS2.buffer.length = (successMsgs exS2.outcomes).length :=
  runProject_delivered_producer_terminated exTeam [[], []] exS2 rfl
    (Steps.tail (Steps.tail (Steps.refl exS0) (Step.task 0 exS0 (by decide) rfl))
      (Step.deliver exS1 exMsgA [] rfl))

/-- C2 (counterexample): a role's memory can contain a message that is
neither the seed nor subscribed to.  In the one-role team `exTeamL`
(empty watch list), the final state after a successful round holds the
role's own produced message in its memory, and that message's `CauseBy`
is not in the role's watch list. -/
theorem runProject_memory_membership_counterexample :
    RunReach exTeamL [[]] exL2 ∧ IsFinal exL2 ∧
    exMsgA ∈ exL2.mems.getD 0 [] ∧ exMsgA ≠ seedMsg "idea" ∧
    exMsgA.causeBy ∉ (exTeamL.roles.getD 0 anyRole).watchList := by
  refine ⟨?_, ⟨by decide, rfl⟩, by decide, by decide, by decide⟩
  exact Steps.tail (Steps.tail (Steps.refl exL0) (Step.task 0 exL0 (by decide) rfl))
    (Step.deliver exL1 exMsgA [] rfl)

/-- C2 (amended): after any run of `Team.RunProject` started from empty
memories, every message in a role's memory is the seed request, or has a
`CauseBy` in that role's watch list, or is the role's own successfully
produced output (which `Act` appends to its own memory regardless of
subscriptions). -/
theorem runProject_memory_membership_with_self_append (tm : Team) (s : ExecState)
    (h : RunReach tm (List.replicate tm.roles.length []) s)
    (j : Nat) (hj : j < tm.roles.length) (m : Message) (hm : m ∈ s.mems.getD j []) :
    m = seedMsg tm.projectIdea ∨
    m.causeBy ∈ (tm.roles.getD j anyRole).watchList ∨
    s.outcomes.getD j (some none) = some (some m) := by
  have hinv := runReach_inv h (by simp)
  rcases hinv.src j hj m hm with h1 | h2 | h3 | h4
  · rw [show (List.replicate tm.roles.length ([] : Memory)).getD j [] = []
      from getD_replicate_self [] tm.roles.length j] at h1
    cases h1
  · exact Or.inl h2
  · exact Or.inr (Or.inr h3)
  · exact Or.inr (Or.inl h4)

/-- Witness for C2 (amended), at the post-seed state of `exTeamL` with the
seed message. -/
theorem runProject_memory_membership_with_self_append_witness :
    seedMsg exTeamL.projectIdea = seedMsg exTeamL.projectIdea ∨
    (seedMsg exTeamL.projectIdea).causeBy ∈ (exTeamL.roles.getD 0 anyRole).watchList ∨
    (initState exTeamL.roles (List.replicate exTeamL.roles.length [])
        exTeamL.projectIdea).outcomes.getD 0 (some none)
      = some (some (seedMsg exTeamL.projectIdea)) :=
  runProject_memory_membership_with_self_append exTeamL _ (Steps.refl _) 0 (by decide)
    (seedMsg exTeamL.projectIdea) (by decide)

/-- C3 (confirmed): in `RunProject`'s delivery step, a produced message is
appended to a role's memory if and only if the message's `CauseBy` is in
that role's watch list (with one copy per watch-list occurrence); a role
whose watch list does not contain the label receives nothing. -/
theorem runProject_delivery_watchlist_routing (roles : List Role) (s : ExecState)
    (msg : Message) (rest : List Message) (j : Nat) (hj : j < roles.length)
    (hlen : s.mems.length = roles.length) :
    (deliverPost roles s msg rest).mems.getD j []
      = s.mems.getD j []
        ++ List.replicate (((roles.getD j anyRole).watchList).count msg.causeBy) msg ∧
    (msg.causeBy ∈ (roles.getD j anyRole).watchList ↔
      (deliverPost roles s msg rest).mems.getD j [] ≠ s.mems.getD j []) := by
  have heq : (deliverPost roles s msg rest).mems.getD j []
      = deliverLoop msg (roles.getD j anyRole).watchList (s.mems.getD j []) := by
    simp only [deliverPost]
    exact getD_zipWith _ _ _ _ _ anyRole [] (by omega) (by omega)
  rw [heq, deliverLoop_eq]
  refine ⟨rfl, ?_, ?_⟩
  · intro hmem heq2
    have hpos : 0 < ((roles.getD j anyRole).watchList).count msg.causeBy :=
      List.count_pos_iff.mpr hmem
    have hlen3 := congrArg List.length heq2
    simp only [List.length_append, List.length_replicate] at hlen3
    omega
  · intro hne
    by_contra hnot
    have h0 : ((roles.getD j anyRole).watchList).count msg.causeBy = 0 :=
      List.count_eq_zero.mpr hnot
    rw [h0] at hne
    simp at hne

/-- Witness for C3, delivering the coder's message in `exTeam`: the tester
(role 1) watches `SimpleWriteCode`, so the message is appended. -/
theorem runProject_delivery_watchlist_routing_witness :
    (deliverPost exTeam.roles exS1 exMsgA []).mems.getD 1 []
      = exS1.mems.getD 1 []
        ++ List.replicate (((exTeam.roles.getD 1 anyRole).watchList).count exMsgA.causeBy)
          exMsgA ∧
    (exMsgA.causeBy ∈ (exTeam.roles.getD 1 anyRole).watchList ↔
      (deliverPost exTeam.roles exS1 exMsgA []).mems.getD 1 [] ≠ exS1.mems.getD 1 []) :=
  runProject_delivery_watchlist_routing exTeam.roles exS1 exMsgA [] 1 (by decide) rfl

/-- C4 (confirmed): for a role whose first capability succeeds on the built
context, `Role.Act` builds the context by formatting each `GetRecent`
message as `"[<role>]: <content>\n"` (empty string if none), invokes only
the first capability (the rest of the sequence is irrelevant regardless of
outcome), and returns a message with `content` = capability output,
`role` = the role's profile, `causeBy` = the capability's name, appending
exactly that message to the role's own memory. -/
theorem act_first_capability_success (r : Role) (mem : Memory) (a : Action)
    (rest : List Action) (out : String) (hact : r.actions = a :: rest)
    (hrun : a.run (buildContext mem.getRecent) = Except.ok out) :
    r.act mem = Except.ok
      ({ content := out, role := r.profile, causeBy := a.name },
        mem ++ [{ content := out, role := r.profile, causeBy := a.name }]) ∧
    (∀ rest2, Role.act { r with actions := a :: rest2 } mem
      = Role.act { r with actions := [a] } mem) ∧
    buildContext mem.getRecent = String.join (mem.getRecent.map formatEntry) ∧
    buildContext [] = "" := by
  refine ⟨?_, ?_, buildContext_join mem.getRecent, rfl⟩
  · unfold Role.act
    rw [hact]
    simp [Role.actLoop, hrun, Memory.add]
  · intro rest2
    rfl

/-- Witness for C4, with the self-watch role's single succeeding capability
on an empty memory. -/
theorem act_first_capability_success_witness :
    exSelf.act [] = Except.ok (exMsgD, [exMsgD]) := by
  have h := act_first_capability_success exSelf [] (okAct "SelfAct" "selfOut") [] "selfOut"
    rfl rfl
  exact h.1

/-- C5 (confirmed): `Role.Act` returns an error exactly when the capability
sequence is empty (a "no suitable action" error) or the first capability
fails (a wrapped error carrying that capability's name and the underlying
cause); in every error case the role task leaves the role's memory
unchanged and sends nothing into the results channel. -/
theorem act_error_characterization (r : Role) (mem : Memory) :
    (∀ e, r.act mem = Except.error e ↔
      (r.actions = [] ∧ e = ActError.noSuitableAction) ∨
      (∃ a rest cause, r.actions = a :: rest ∧
        a.run (buildContext mem.getRecent) = Except.error cause ∧
        e = ActError.actionFailed a.name cause)) ∧
    (∀ roles s i e, Role.act (roles.getD i anyRole) (s.mems.getD i []) = Except.error e →
      (taskPost roles s i).mems = s.mems ∧ (taskPost roles s i).buffer = s.buffer ∧
      (taskPost roles s i).outcomes = s.outcomes.set i (some none)) := by
  constructor
  · intro e
    constructor
    · intro h
      unfold Role.act at h
      cases hA : r.actions with
      | nil =>
        rw [hA] at h
        simp only [Role.actLoop] at h
        injection h with he
        exact Or.inl ⟨rfl, he.symm⟩
      | cons a tl =>
        rw [hA] at h
        cases hr : a.run (buildContext mem.getRecent) with
        | error c =>
          simp only [Role.actLoop, hr] at h
          injection h with he
          exact Or.inr ⟨a, tl, c, rfl, hr, he.symm⟩
        | ok out =>
          simp only [Role.actLoop, hr] at h
          simp at h
    · intro h
      rcases h with ⟨hA, he⟩ | ⟨a, rest, cause, hA, hr, he⟩
      · subst he
        unfold Role.act
        rw [hA]
        rfl
      · subst he
        unfold Role.act
        rw [hA]
        simp only [Role.actLoop, hr]
  · intro roles s i e h
    refine ⟨?_, ?_, ?_⟩ <;> simp only [taskPost, h]

/-- Witness for C5: a role whose only capability fails yields the wrapped
error with the capability name and cause. -/
theorem act_error_characterization_witness :
    exFailRole.act [] = Except.error (ActError.actionFailed "FAct" "boom") := by
  have h := (act_error_characterization exFailRole []).1
    (ActError.actionFailed "FAct" "boom")
  exact h.mpr (Or.inr ⟨failAct "FAct", [], "boom", rfl, rfl, rfl⟩)

/-- C6 (confirmed): `RunProject` appends the seed message (`role` = "User",
`causeBy` = "UserRequirement", `content` = the project idea) to every
role's memory before any task is dispatched: in the post-seed pre-dispatch
state every role's memory is non-empty with `GetRecent` returning the seed
and no task has run; and in any reachable state in which nothing has been
delivered, every role whose task has not yet run still sees the seed as
its most recent message. -/
theorem runProject_seed_before_dispatch (tm : Team) (mems0 : List Memory)
    (hm0 : mems0.length = tm.roles.length) :
    (∀ j, j < tm.roles.length →
      (initState tm.roles mems0 tm.projectIdea).mems.getD j [] ≠ [] ∧
      ((initState tm.roles mems0 tm.projectIdea).mems.getD j []).getRecent
        = [seedMsg tm.projectIdea] ∧
      (seedMsg tm.projectIdea).causeBy = "UserRequirement") ∧
    (∀ o ∈ (initState tm.roles mems0 tm.projectIdea).outcomes, o = none) ∧
    (∀ s, RunReach tm mems0 s → s.delivered = [] →
      ∀ j, j < tm.roles.length → s.outcomes.getD j (some none) = none →
      (s.mems.getD j []).getRecent = [seedMsg tm.projectIdea]) := by
  refine ⟨?_, ?_, ?_⟩
  · intro j hj
    have hmem : (initState tm.roles mems0 tm.projectIdea).mems.getD j []
        = (mems0.getD j []).add (seedMsg tm.projectIdea) :=
      getD_map _ mems0 j [] [] (by omega)
    refine ⟨?_, ?_, rfl⟩
    · rw [hmem]
      simp [Memory.add]
    · rw [hmem]
      exact getRecent_add _ _
  · intro o ho
    simp only [initState] at ho
    obtain ⟨r, _, hr⟩ := List.mem_map.mp ho
    exact hr.symm
  · intro s hreach hd j hj hpend
    have hinv := runReach_inv hreach hm0
    rw [hinv.quiet hd j hj hpend]
    exact getRecent_add _ _

/-- Witness for C6 at the two-role team `exTeam` with empty memories. -/
theorem runProject_seed_before_dispatch_witness :
    (∀ j, j < exTeam.roles.length →
      (initState exTeam.roles [[], []] exTeam.projectIdea).mems.getD j [] ≠ [] ∧
      ((initState exTeam.roles [[], []] exTeam.projectIdea).mems.getD j []).getRecent
        = [seedMsg exTeam.projectIdea] ∧
      (seedMsg exTeam.projectIdea).causeBy = "UserRequirement") ∧
    (∀ o ∈ (initState exTeam.roles [[], []] exTeam.projectIdea).outcomes, o = none) ∧
    (∀ s, RunReach exTeam [[], []] s → s.delivered = [] →
      ∀ j, j < exTeam.roles.length → s.outcomes.getD j (some none) = none →
      (s.mems.getD j []).getRecent = [seedMsg exTeam.projectIdea]) :=
  runProject_seed_before_dispatch exTeam [[], []] rfl

/-- C7 (confirmed): every execution of `RunProject` can run every dispatched
role task to termination and drain the channel regardless of which
capabilities fail (isolation: one role's failure never blocks the round),
and in every final state the number of delivered results equals exactly
the number of roles whose `Act` succeeded, is at most the number of roles,
and the delivered messages are exactly the successful results. -/
theorem runProject_isolation_and_result_count (tm : Team) (mems0 : List Memory)
    (hm0 : mems0.length = tm.roles.length) :
    (∃ s, RunReach tm mems0 s ∧ IsFinal s) ∧
    (∀ s, RunReach tm mems0 s → IsFinal s →
      s.delivered.length = (successMsgs s.outcomes).length ∧
      s.delivered.length ≤ tm.roles.length ∧
      (∀ m, some (some m) ∈ s.outcomes → m ∈ s.delivered) ∧
      (∀ m ∈ s.delivered, some (some m) ∈ s.outcomes)) := by
  constructor
  · obtain ⟨s2, hsteps, _, hfin⟩ :=
      exists_final _ (inv_init tm.roles mems0 tm.projectIdea hm0)
    exact ⟨s2, hsteps, hfin⟩
  · intro s hreach hfin
    have hinv := runReach_inv hreach hm0
    have hpermd : s.delivered.Perm (successMsgs s.outcomes) := by
      have hp := hinv.perm
      rwa [hfin.2, List.append_nil] at hp
    refine ⟨hpermd.length_eq, ?_, ?_, ?_⟩
    · rw [hpermd.length_eq]
      calc (successMsgs s.outcomes).length
          ≤ s.outcomes.length := List.length_filterMap_le _ _
        _ = tm.roles.length := hinv.out_len
    · intro m hmo
      exact hpermd.mem_iff.mpr (List.mem_filterMap.mpr ⟨some (some m), hmo, rfl⟩)
    · intro m hmd
      obtain ⟨o, ho, hfo⟩ := List.mem_filterMap.mp (hpermd.mem_iff.mp hmd)
      exact successExtract_eq_some hfo ▸ ho

/-- Witness for C7 at the two-role team `exTeam` with empty memories. -/
theorem runProject_isolation_and_result_count_witness :
    (∃ s, RunReach exTeam [[], []] s ∧ IsFinal s) ∧
    (∀ s, RunReach exTeam [[], []] s → IsFinal s →
      s.delivered.length = (successMsgs s.outcomes).length ∧
      s.delivered.length ≤ exTeam.roles.length ∧
      (∀ m, some (some m) ∈ s.outcomes → m ∈ s.delivered) ∧
      (∀ m ∈ s.delivered, some (some m) ∈ s.outcomes)) :=
  runProject_isolation_and_result_count exTeam [[], []] rfl

/-- C8 (confirmed): `Memory` log laws — `GetRecent` after `Add(m, x)`
returns exactly `[x]`, `GetRecent` of an empty log is empty, and any
sequence of `Add` calls starting from the empty log stores exactly the
appended messages in order (length `n` after `n` calls, nothing dropped or
reordered). -/
theorem memory_log_laws :
    (∀ (mem : Memory) (x : Message), (mem.add x).getRecent = [x]) ∧
    (Memory.getRecent [] = []) ∧
    (∀ xs : List Message, List.foldl Memory.add [] xs = xs) ∧
    (∀ xs : List Message, (List.foldl Memory.add [] xs).length = xs.length) := by
  have hfold : ∀ (xs : List Message) (acc : Memory), List.foldl Memory.add acc xs = acc ++ xs := by
    intro xs
    induction xs with
    | nil =>
      intro acc
      simp
    | cons x tl ih =>
      intro acc
      rw [List.foldl_cons, ih]
      simp [Memory.add]
  refine ⟨getRecent_add, rfl, ?_, ?_⟩
  · intro xs
    rw [hfold]
    simp
  · intro xs
    rw [hfold]
    simp

/-- C9 (confirmed): `parseCode` is the identity — both regular expressions
it compiles are the empty pattern, whose `FindStringSubmatch` result has
exactly one element, so neither extraction branch is taken and the input
is returned verbatim. -/
theorem parseCode_identity (rsp : String) :
    parseCode rsp = rsp ∧ (emptyPatternFindStringSubmatch rsp).length = 1 :=
  ⟨rfl, rfl⟩

/-- C10 (confirmed): the delivery step appends a message once per
occurrence of its `CauseBy` in a role's watch list (`n` occurrences yield
`n` copies), and a role watching its own capability's name ends a
successful round holding its own output twice — once from `Act`'s
self-append and once from delivery, as the final state of `exTeamD`
shows. -/
theorem delivery_per_occurrence_and_self_watch :
    (∀ (msg : Message) (wl : List String) (mem : Memory),
      deliverLoop msg wl mem = mem ++ List.replicate (wl.count msg.causeBy) msg ∧
      (deliverLoop msg wl mem).length = mem.length + wl.count msg.causeBy) ∧
    RunReach exTeamD [[]] exD2 ∧ IsFinal exD2 ∧
    (exD2.mems.getD 0 []).count exMsgD = 2 := by
  refine ⟨?_, ?_, ⟨by decide, rfl⟩, by decide⟩
  · intro msg wl mem
    refine ⟨deliverLoop_eq msg wl mem, ?_⟩
    rw [deliverLoop_eq]
    simp
  · exact Steps.tail (Steps.tail (Steps.refl exD0) (Step.task 0 exD0 (by decide) rfl))
      (Step.deliver exD1 exMsgD [] rfl)

/-- Witness for C8, adding one message to the empty log. -/
theorem memory_log_laws_witness :
    (Memory.add [] exMsgA).getRecent = [exMsgA] ∧
    List.foldl Memory.add [] [exMsgA, exMsgD] = [exMsgA, exMsgD] :=
  ⟨memory_log_laws.1 [] exMsgA, (memory_log_laws.2.2.1) [exMsgA, exMsgD]⟩

/-- Witness for C9 on a concrete response string. -/
theorem parseCode_identity_witness :
    parseCode "```python\nx = 1\n```" = "```python\nx = 1\n```" :=
  (parseCode_identity "```python\nx = 1\n```").1

/-- Witness for C10: a watch list holding the label twice yields two
appended copies. -/
theorem delivery_per_occurrence_and_self_watch_witness :
    deliverLoop exMsgD ["SelfAct", "SelfAct"] []
      = [] ++ List.replicate (List.count exMsgD.causeBy ["SelfAct", "SelfAct"]) exMsgD ∧
    (deliverLoop exMsgD ["SelfAct", "SelfAct"] []).length
      = ([] : Memory).length + List.count exMsgD.causeBy ["SelfAct", "SelfAct"] :=
  delivery_per_occurrence_and_self_watch.1 exMsgD ["SelfAct", "SelfAct"] []

end MetaGPT
